import Mathlib

/-!
Verification development for the "henne-fuchs" (Fox and Hens) rule engine and
AI search. The definitions below are a shallow embedding of the TypeScript
sources `src/app/play/board.ts`, `src/app/play/ai/board-matrix.ts` and the
`BoardMatrixService` (minimax search). Mutation is modelled by pure functions
returning updated structures; JavaScript `Map<String, Cell>` keyed by `"x-y"`
is modelled as a total function `Point → State` together with the fixed set of
valid cells (the map always contains exactly the 33 valid cells, only the
stored `State` values change).
-/

namespace HF

/-- Mirrors `enum State { FOX, CHICKEN, EMPTY }` in board.ts. -/
inductive State where
  | FOX
  | CHICKEN
  | EMPTY
deriving DecidableEq, Repr

/-- Mirrors `class Point { x, y }` (coordinates are JS numbers, integral in all uses). -/
structure Point where
  x : Int
  y : Int
deriving DecidableEq, Repr

/-- Mirrors `enum Player { CHICKEN, FOX }`. -/
inductive Player where
  | CHICKEN
  | FOX
deriving DecidableEq, Repr

/-- Mirrors `isValidCell` in board-matrix.ts, which is the same geometry rule as
the `Board` constructor in board.ts (cells inside the 7x7 grid minus the four
2x2 corner blocks). `board.has(key)` on the game board is equivalent to this
predicate, since the map is created with exactly these keys and never gains or
loses entries. -/
def isValidCell (x y : Int) : Bool :=
  decide (0 ≤ x) && decide (x < 7) && decide (0 ≤ y) && decide (y < 7) &&
    !((decide (x ≤ 1) || decide (5 ≤ x)) && (decide (y ≤ 1) || decide (5 ≤ y)))

/-- Validity of a `Point` (see `isValidCell`). -/
def validCell (p : Point) : Bool :=
  isValidCell p.x p.y

/-- The valid cells in the insertion order used by the `Board` constructor
(`for x ... for y ...`, skipping the cut-out corners); `Map` iteration in JS
is insertion order, so `board.values()` enumerates cells in this order. -/
def boardPoints : List Point :=
  ((List.range 7).map (fun x =>
    (List.range 7).filterMap (fun y =>
      let p : Point := ⟨(x : Int), (y : Int)⟩
      if validCell p then some p else none))).flatten

/-- Mirrors `Cell.getConnectedCells` (board.ts, current version): the three
orthogonal candidates always, downward `(x, y+1)` only when not
`onlyChicken`, the four diagonals only when the parity condition holds and
not `onlyChicken`; finally filtered to cells present on the board. -/
def getConnectedCells (p : Point) (onlyChicken : Bool) : List Point :=
  let x := p.x
  let y := p.y
  let pts : List Point :=
    [⟨x - 1, y⟩, ⟨x + 1, y⟩, ⟨x, y - 1⟩]
      ++ (if onlyChicken then [] else [⟨x, y + 1⟩])
      ++ (if ((x % 2 == 0 && y % 2 == 0) || (x % 2 != 0 && y % 2 != 0)) && !onlyChicken then
            [⟨x + 1, y + 1⟩, ⟨x - 1, y + 1⟩, ⟨x + 1, y - 1⟩, ⟨x - 1, y - 1⟩]
          else [])
  pts.filter validCell

/-- Mirrors `interface JumpOption` of board.ts. The TS field names `from` and
`end` are Lean keywords, so they are rendered `fromP` / `endP`. -/
structure JumpOption where
  good : Bool
  toBeRemovedChickens : List Point
  fromP : Point
  endP : Point
deriving DecidableEq, Repr

/-- Writing a cell state through `board.get(key)?.getWritableState().set(v)`:
a no-op when the key is not on the board, otherwise a point update. -/
def setCell (st : Point → State) (p : Point) (v : State) : Point → State :=
  fun q => if q = p ∧ validCell p = true then v else st q

/-- The initial `points` array of `Cell.getJumpsCells`: connected cells
holding a chicken. -/
def jumpStartPoints (st : Point → State) (pt : Point) : List Point :=
  (getConnectedCells pt false).filter (fun q => st q == State.CHICKEN)

/-- Mirrors `Cell.getJumpsCells` (board.ts). The `for (let connectedCell of
points)` loop mutates `points` via `points.push(jumpPoint)` while iterating;
JS array iterators observe such appends, so the loop is modelled as a worklist
where the landing cell is appended at the tail (`rest ++ [jp]`), and the
recursive call on the cloned board restarts with that level's own fresh
`points` array (`jumpStartPoints`). One fuel unit is spent per loop step and
per chain descent; the recursion always terminates (each descent removes a
cell from the cloned board, each level's worklist grows only along rays that
leave the board), so the generous `jumpFuel` below is never exhausted. -/
def jumpEngine : Nat → (Point → State) → Point → List Point → Option Point → List Point → List JumpOption
  | 0, _, _, _, _, _ => []
  | _ + 1, _, _, _, _, [] => []
  | n + 1, st, pt, tbr, fr, cc :: rest =>
      let jp : Point := ⟨cc.x + (cc.x - pt.x), cc.y + (cc.y - pt.y)⟩
      if validCell jp = true ∧ st jp = State.EMPTY then
        let st2 := setCell st cc State.EMPTY
        let chain := jumpEngine n st2 jp [cc] (some (fr.getD pt)) (jumpStartPoints st2 jp)
        let newOpt : JumpOption :=
          ⟨chain.isEmpty, cc :: tbr, fr.getD pt, jp⟩
        (newOpt :: chain) ++ jumpEngine n st pt tbr fr (rest ++ [jp])
      else
        jumpEngine n st pt tbr fr rest

/-- Ample fuel for `jumpEngine`: far above the length of any possible chain of
loop steps and descents on a 33-cell board. -/
def jumpFuel : Nat := 10000

/-- `Cell.getJumpsCells(board, toBeRemovedChickens, from)`. -/
def getJumpsCellsF (c : Nat) (st : Point → State) (pt : Point) (tbr : List Point)
    (fr : Option Point) : List JumpOption :=
  jumpEngine c st pt tbr fr (jumpStartPoints st pt)

/-- Outcomes of `Board.attemptMove` (board.ts `MoveAttemptResult.outcome`). -/
inductive Outcome where
  | moved
  | jumped
  | punished
  | ignored
deriving DecidableEq, Repr

/-- The game-of-record `Board` (board.ts, current version): cell states, side
to move, and the optional terminal-outcome description `winingReason`. -/
structure Board where
  state : Point → State
  playersTurn : Player
  winingReason : Option String

/-- Mirrors `Board.startStateFor`. -/
def startStateFor (p : Point) : State :=
  if 3 ≤ p.y then State.CHICKEN
  else if p.y = 2 ∧ (p.x = 2 ∨ p.x = 4) then State.FOX
  else State.EMPTY

/-- The board as built by the `Board` constructor (and restored by `reset`). -/
def initialBoard : Board :=
  { state := fun p => if validCell p then startStateFor p else State.EMPTY
    playersTurn := Player.CHICKEN
    winingReason := none }

/-- Mirrors the computed signal `Board.chickens`. -/
def countChickens (b : Board) : Nat :=
  boardPoints.countP (fun p => b.state p == State.CHICKEN)

/-- Mirrors the computed signal `Board.foxes`. -/
def countFoxes (b : Board) : Nat :=
  boardPoints.countP (fun p => b.state p == State.FOX)

/-- The stall-region test used by `Board.chickensInStall`. -/
def isStallPoint (p : Point) : Bool :=
  decide (p.y ≤ 1) || (decide (p.y = 2) && decide (2 ≤ p.x) && decide (p.x ≤ 4))

/-- Mirrors the computed signal `Board.chickensInStall`. -/
def chickensInStall (b : Board) : Nat :=
  boardPoints.countP (fun p => b.state p == State.CHICKEN && isStallPoint p)

/-- Mirrors `Board.changePlayer`. -/
def otherPlayer (p : Player) : Player :=
  match p with
  | Player.CHICKEN => Player.FOX
  | Player.FOX => Player.CHICKEN

/-- Mirrors `Board.getMoves(point)`. -/
def Board.getMoves (b : Board) (p : Point) : List Point :=
  (getConnectedCells p (b.playersTurn == Player.CHICKEN)).filter
    (fun q => b.state q == State.EMPTY)

/-- Mirrors `Board.getJumps(point)`. -/
def Board.getJumps (b : Board) (p : Point) : List JumpOption :=
  getJumpsCellsF jumpFuel b.state p [] none

/-- Mirrors `Board.moveTo(selectedPiece, to)`: undefined guard, two cell
writes, `changePlayer`, then the chickens-in-stall win check. -/
def Board.moveTo (b : Board) (sel : Option Point) (toP : Point) : Board :=
  match sel with
  | none => b
  | some s =>
      let st1 := setCell b.state s State.EMPTY
      let st2 := setCell st1 toP
        (if b.playersTurn == Player.CHICKEN then State.CHICKEN else State.FOX)
      let b1 : Board :=
        { state := st2, playersTurn := otherPlayer b.playersTurn
          winingReason := b.winingReason }
      if 9 ≤ chickensInStall b1 then
        { b1 with winingReason := some "All chickens are in the stall! Chickens win!" }
      else b1

/-- Mirrors `Board.jumpTo(selectedPiece, jumpOption)`: undefined guard, remove
the captured cells, empty the origin, place the fox at the landing cell,
`changePlayer`, then the too-few-chickens loss check. -/
def Board.jumpTo (b : Board) (sel : Option Point) (o : JumpOption) : Board :=
  match sel with
  | none => b
  | some s =>
      let stC := o.toBeRemovedChickens.foldl (fun acc q => setCell acc q State.EMPTY) b.state
      let st1 := setCell stC s State.EMPTY
      let st2 := setCell st1 o.endP State.FOX
      let b1 : Board :=
        { state := st2, playersTurn := otherPlayer b.playersTurn
          winingReason := b.winingReason }
      if countChickens b1 < 9 then
        { b1 with winingReason := some "Too many chickens died! Chickens lose!" }
      else b1

/-- Mirrors the private `Board.punish(point)`. -/
def Board.punish (b : Board) (p : Point) : Board :=
  let b1 : Board :=
    { state := setCell b.state p State.EMPTY
      playersTurn := otherPlayer b.playersTurn
      winingReason := b.winingReason }
  if countFoxes b1 < 1 then
    { b1 with winingReason := some "No more foxes! Foxes lose!" }
  else b1

/-- Mirrors `Board.punishForJump`: an undefined selection is a no-op. -/
def Board.punishForJump (b : Board) (sel : Option Point) (_o : JumpOption) : Board :=
  match sel with
  | none => b
  | some s => b.punish s

/-- Mirrors `Board.punishForNotJumping`: punishes the origin of the first
entry of the supplied all-jumps list (which the caller guarantees nonempty). -/
def Board.punishForNotJumping (b : Board) (opts : List JumpOption) : Board :=
  match opts with
  | [] => b
  | j :: _ => b.punish j.fromP

/-- Mirrors `Board.getAllJumps`: empty for the chicken side, otherwise the
concatenation of per-fox jump options in board iteration order. -/
def Board.getAllJumps (b : Board) : List JumpOption :=
  if b.playersTurn == Player.CHICKEN then []
  else
    ((boardPoints.filter (fun p => b.state p == State.FOX)).map
      (fun p => getJumpsCellsF jumpFuel b.state p [] none)).flatten

/-- Mirrors `Board.getAllMoves`: empty for the chicken side, otherwise the
concatenation of per-fox step moves in board iteration order. -/
def Board.getAllMoves (b : Board) : List Point :=
  if b.playersTurn == Player.CHICKEN then []
  else
    ((boardPoints.filter (fun p => b.state p == State.FOX)).map
      (fun p => b.getMoves p)).flatten

/-- The result of `Board.attemptMove` together with the board it produced
(the TS method mutates the board in place; here the updated board is a field). -/
structure AttemptResult where
  outcome : Outcome
  message : Option String
  board : Board

/-- Mirrors `Board.attemptMove`: the four guarded branches in source order,
falling through to `ignored`. -/
def Board.attemptMove (b : Board) (sel : Option Point) (toP : Point)
    (availableMoves : List Point) (availableJumps allJumps : List JumpOption) :
    AttemptResult :=
  let validMove := availableMoves.find? (fun p => p.x == toP.x && p.y == toP.y)
  let jumpOption := availableJumps.find? (fun o => o.endP.x == toP.x && o.endP.y == toP.y)
  if validMove.isSome ∧ allJumps.isEmpty then
    ⟨Outcome.moved, none, b.moveTo sel toP⟩
  else if validMove.isSome ∧ ¬ allJumps.isEmpty then
    ⟨Outcome.punished, some "Nice try - jumping is mandatory when available.",
      b.punishForNotJumping allJumps⟩
  else
    match jumpOption with
    | some o =>
        if o.good then ⟨Outcome.jumped, none, b.jumpTo sel o⟩
        else ⟨Outcome.punished, some "You must keep jumping until the move is finished.",
          b.punishForJump sel o⟩
    | none => ⟨Outcome.ignored, none, b⟩

/-!
Snapshot / search-engine embedding (board-matrix.ts and BoardMatrixService).
A `BoardMatrixSnapshot` is a 49-slot `Uint8Array` plus a validity mask; the
mask always equals `isValidCell`, and every read is guarded by it, so the
snapshot is modelled as a total function `Point → State`.
-/

/-- Snapshot of the board used by the search engine. -/
def Snap : Type := Point → State

/-- Mirrors `isStallCell` in board-matrix.ts. -/
def isStallCell (x y : Int) : Bool :=
  decide (y ≤ 1) || (decide (y = 2) && decide (2 ≤ x) && decide (x ≤ 4))

/-- The 49 grid indices in `idx` order (`i = y*7 + x`, row-major, `y` outer),
as points; this is the iteration order of the snapshot loops. -/
def snapPoints : List Point :=
  ((List.range 7).map (fun y =>
    (List.range 7).map (fun x => (⟨(x : Int), (y : Int)⟩ : Point)))).flatten

/-- Mirrors `countChickensAlive` (board-matrix.ts). -/
def countChickensAlive (snap : Snap) : Nat :=
  snapPoints.countP (fun p => validCell p && snap p == State.CHICKEN)

/-- Mirrors `countChickensInStall` (board-matrix.ts). -/
def countChickensInStallM (snap : Snap) : Nat :=
  snapPoints.countP (fun p => validCell p && isStallCell p.x p.y && snap p == State.CHICKEN)

/-- Mirrors `evaluate` (board-matrix.ts): 0 when the chickens have lost,
1000 when they have won, otherwise `alive*2 + inStall*3`. Scores are rational
numbers (the JS values are floats, exact on these halves and integers). -/
def evaluate (snap : Snap) : ℚ :=
  let alive := countChickensAlive snap
  if alive < 9 then 0
  else
    let inStall := countChickensInStallM snap
    if inStall = 9 then 1000
    else (alive : ℚ) * 2 + (inStall : ℚ) * 3

/-- Mirrors `getConnectedPoints` (board-matrix.ts); identical geometry to
`Cell.getConnectedCells`. -/
def getConnectedPoints (x y : Int) (onlyChicken : Bool) : List Point :=
  let pts : List Point :=
    [⟨x - 1, y⟩, ⟨x + 1, y⟩, ⟨x, y - 1⟩]
      ++ (if onlyChicken then [] else [⟨x, y + 1⟩])
      ++ (if ((x % 2 == 0 && y % 2 == 0) || (x % 2 != 0 && y % 2 != 0)) && !onlyChicken then
            [⟨x + 1, y + 1⟩, ⟨x - 1, y + 1⟩, ⟨x + 1, y - 1⟩, ⟨x - 1, y - 1⟩]
          else [])
  pts.filter validCell

/-- Mirrors `interface MatrixJumpOption` (board-matrix.ts); `from`/`end`
renamed as in `JumpOption`. -/
structure MatrixJumpOption where
  toBeRemovedChickens : List Point
  fromP : Point
  endP : Point
deriving DecidableEq, Repr

/-- Mirrors `getMovesForChicken` (board-matrix.ts). -/
def getMovesForChicken (snap : Snap) (x y : Int) : List Point :=
  if ¬ (isValidCell x y = true ∧ snap ⟨x, y⟩ = State.CHICKEN) then []
  else (getConnectedPoints x y true).filter (fun p => snap p == State.EMPTY)

/-- Mirrors `getFoxJumpsInternal` (board-matrix.ts): returns only completed
(terminal) jump chains, accumulating the full captured list. `fuel` bounds the
chain depth; each level removes one chicken from the cloned snapshot, so 34
levels can never be exhausted on a 33-cell board. -/
def getFoxJumpsInternalF : Nat → Snap → Int → Int → List Point → Point → List MatrixJumpOption
  | 0, _, _, _, _, _ => []
  | f + 1, snap, x, y, cap, fr =>
      let adj := (getConnectedPoints x y false).filter (fun p => snap p == State.CHICKEN)
      (adj.map (fun mid =>
        let land : Point := ⟨mid.x + (mid.x - x), mid.y + (mid.y - y)⟩
        if isValidCell land.x land.y = true ∧ snap land = State.EMPTY then
          let child : Snap := fun q => if q = mid then State.EMPTY else snap q
          let next := mid :: cap
          let chain := getFoxJumpsInternalF f child land.x land.y next fr
          if chain.isEmpty then [⟨next, fr, land⟩] else chain
        else [])).flatten

/-- Fuel for `getFoxJumpsInternalF` (see its doc comment). -/
def matrixFuel : Nat := 34

/-- Mirrors `getMovesForFox` (board-matrix.ts). -/
def getMovesForFox (snap : Snap) (x y : Int) : List Point × List MatrixJumpOption :=
  if ¬ (isValidCell x y = true ∧ snap ⟨x, y⟩ = State.FOX) then ([], [])
  else
    ((getConnectedPoints x y false).filter (fun p => snap p == State.EMPTY),
     getFoxJumpsInternalF matrixFuel snap x y [] ⟨x, y⟩)

/-- A `{from, to}` pair as used by the search service. -/
structure MoveFT where
  fromP : Point
  toP : Point
deriving DecidableEq, Repr

/-- Mirrors `BoardMatrixService.allFoxMoves`: step moves and jump options of
every fox, in snapshot iteration order. -/
def allFoxMoves (snap : Snap) : List MoveFT × List MatrixJumpOption :=
  let foxCells := snapPoints.filter (fun p => validCell p && snap p == State.FOX)
  ((foxCells.map (fun p => (getMovesForFox snap p.x p.y).1.map (fun m => (⟨p, m⟩ : MoveFT)))).flatten,
   (foxCells.map (fun p => (getMovesForFox snap p.x p.y).2)).flatten)

/-- Mirrors `BoardMatrixService.allChickenMoves`. -/
def allChickenMoves (snap : Snap) : List MoveFT :=
  let cells := snapPoints.filter (fun p => validCell p && snap p == State.CHICKEN)
  (cells.map (fun p => (getMovesForChicken snap p.x p.y).map (fun m => (⟨p, m⟩ : MoveFT)))).flatten

/-- Mirrors `BoardMatrixService.scoreForChickens`: `evaluate` plus the stall
bonus, minus the danger penalties when any fox jump is available. -/
def scoreForChickens (snap : Snap) : ℚ :=
  let s := evaluate snap + (countChickensInStallM snap : ℚ) * (1 / 2)
  let jumps := (allFoxMoves snap).2
  if 0 < jumps.length then
    s - 5 - ((min jumps.length 6 : Nat) : ℚ)
  else s

/-- Mirrors `BoardMatrixService.createSnapshot`: copies `stateFor` over every
valid cell; invalid slots stay `EMPTY`. -/
def createSnapshot (b : Board) : Snap :=
  fun p => if validCell p then b.state p else State.EMPTY

/-- Mirrors `BoardMatrixService.applyStepMove` (read the piece, empty the
origin, write the piece at the destination). -/
def applyStepMove (snap : Snap) (m : MoveFT) : Snap :=
  fun q => if q = m.toP then snap m.fromP else if q = m.fromP then State.EMPTY else snap q

/-- Mirrors `BoardMatrixService.applyFoxJump` (empty the origin and the
captured cells, then place the fox at the landing cell — the landing write is
last, so it wins any overlap). -/
def applyFoxJump (snap : Snap) (j : MatrixJumpOption) : Snap :=
  fun q =>
    if q = j.endP then State.FOX
    else if q ∈ j.toBeRemovedChickens then State.EMPTY
    else if q = j.fromP then State.EMPTY
    else snap q

/-- Extended score values: the JS code uses `Number.NEGATIVE_INFINITY` /
`Number.POSITIVE_INFINITY` as sentinels around finite float scores. -/
inductive XV where
  | ninf
  | fin (q : ℚ)
  | pinf
deriving DecidableEq, Repr

/-- Mirrors JS `<=` on the values in play. -/
def XV.le : XV → XV → Bool
  | XV.ninf, _ => true
  | XV.fin _, XV.ninf => false
  | XV.fin a, XV.fin b => decide (a ≤ b)
  | XV.fin _, XV.pinf => true
  | XV.pinf, XV.pinf => true
  | XV.pinf, XV.ninf => false
  | XV.pinf, XV.fin _ => false

/-- Mirrors JS `<` on the values in play. -/
def XV.lt : XV → XV → Bool
  | XV.ninf, XV.ninf => false
  | XV.ninf, _ => true
  | XV.fin _, XV.ninf => false
  | XV.fin a, XV.fin b => decide (a < b)
  | XV.fin _, XV.pinf => true
  | XV.pinf, _ => false

/-- Mirrors JS `Math.min` on the values in play. -/
def XV.minv (a b : XV) : XV := if XV.le a b then a else b

/-- Mirrors JS `Math.max` on the values in play. -/
def XV.maxv (a b : XV) : XV := if XV.le a b then b else a

/-- The fox-side candidate loop of `BoardMatrixService.minimax`: thread the
running minimum and beta, break once `beta <= alpha`. `child c β` is the
recursive minimax call on child `c` with the (fixed) alpha and current beta. -/
def minLoop (child : Snap → XV → XV) (a : XV) : List Snap → XV → XV → XV
  | [], v, _ => v
  | c :: rest, v, β =>
      let v' := XV.minv v (child c β)
      let β' := XV.minv β v'
      if XV.le β' a then v' else minLoop child a rest v' β'

/-- The chicken-side candidate loop of `BoardMatrixService.minimax`. -/
def maxLoop (child : Snap → XV → XV) (β : XV) : List Snap → XV → XV → XV
  | [], v, _ => v
  | c :: rest, v, α =>
      let v' := XV.maxv v (child c α)
      let α' := XV.maxv α v'
      if XV.le β α' then v' else maxLoop child β rest v' α'

/-- Mirrors `BoardMatrixService.minimax`. Depth is a natural number (the
service only ever passes non-negative depths, clamped with `Math.max(0, ·)`). -/
def minimax : Nat → Snap → Player → XV → XV → XV
  | 0, snap, _, _, _ => XV.fin (scoreForChickens snap)
  | d + 1, snap, pl, a, b =>
      match pl with
      | Player.FOX =>
          let fm := allFoxMoves snap
          let candidates :=
            if fm.2.isEmpty then fm.1.map (applyStepMove snap)
            else fm.2.map (applyFoxJump snap)
          if candidates.isEmpty then XV.fin (scoreForChickens snap)
          else minLoop (fun c β => minimax d c Player.CHICKEN a β) a candidates XV.pinf b
      | Player.CHICKEN =>
          let cm := allChickenMoves snap
          if cm.isEmpty then XV.fin (scoreForChickens snap)
          else maxLoop (fun c α => minimax d c Player.FOX α b) b
            (cm.map (applyStepMove snap)) XV.ninf a

/-- The root candidate fold of `BoardMatrixService.calculateNextMove`:
`if (value <better> bestValue || !best) { best = ...; bestValue = value }`. -/
def rootLoop {α M : Type} (better : XV → XV → Bool) (eval : α → XV) (mk : α → M) :
    List α → Option (M × XV) → Option (M × XV)
  | [], acc => acc
  | c :: rest, acc =>
      match acc with
      | none => rootLoop better eval mk rest (some (mk c, eval c))
      | some (bm, bv) =>
          if better (eval c) bv then rootLoop better eval mk rest (some (mk c, eval c))
          else rootLoop better eval mk rest (some (bm, bv))

/-- Mirrors `BoardMatrixService.calculateNextMove` (part_003): root candidate
generation and selection; the fox minimizes and the chicken maximizes the
chicken-perspective score, searching each child at depth `max(0, depth-1)`
with an infinite alpha-beta window. -/
def calculateNextMove (b : Board) (depth : Nat) (player : Player) : MoveFT :=
  let snap := createSnapshot b
  match player with
  | Player.FOX =>
      let fm := allFoxMoves snap
      let pick :=
        if fm.2.isEmpty then
          rootLoop XV.lt
            (fun m => minimax (depth - 1) (applyStepMove snap m) Player.CHICKEN XV.ninf XV.pinf)
            (fun m => m) fm.1 none
        else
          rootLoop XV.lt
            (fun j => minimax (depth - 1) (applyFoxJump snap j) Player.CHICKEN XV.ninf XV.pinf)
            (fun j => (⟨j.fromP, j.endP⟩ : MoveFT)) fm.2 none
      match pick with
      | some (m, _) => m
      | none => ⟨⟨2, 2⟩, ⟨2, 2⟩⟩
  | Player.CHICKEN =>
      let cm := allChickenMoves snap
      match rootLoop (fun v bv => XV.lt bv v)
          (fun m => minimax (depth - 1) (applyStepMove snap m) Player.FOX XV.ninf XV.pinf)
          (fun m => m) cm none with
      | some (m, _) => m
      | none => ⟨⟨2, 3⟩, ⟨2, 3⟩⟩

/-- The snapshot fingerprint (`Array.from(snap.states).join(',')` in
play.ts / the search service): the 49 state slots in fixed index order.
Joining distinct digit lists with `,` is injective, so the string is modelled
as the list itself. -/
def fingerprint (snap : Snap) : List State :=
  (List.range 49).map (fun i => snap ⟨((i % 7 : Nat) : Int), ((i / 7 : Nat) : Int)⟩)

/-- Modelled from the spec: the repository's current `BoardMatrixService.
calculateNextMove` accepts a fourth `recentFingerprints` argument (play.ts
calls it with `chickenHistory`), but that version of the service file is not
under src/ — src/ only has the three-argument version (part_003) plus the
caller. Per spec section 4.4: at the root only, when searching for the chicken
side, any root candidate whose resulting snapshot fingerprint equals one of
the caller-supplied recent fingerprints is excluded before selection; if this
would eliminate every candidate, the exclusion is dropped and the unfiltered
candidate set is used instead; the fox side and interior nodes are untouched. -/
def calculateNextMoveWithHistory (b : Board) (depth : Nat) (player : Player)
    (recent : List (List State)) : MoveFT :=
  match player with
  | Player.FOX => calculateNextMove b depth Player.FOX
  | Player.CHICKEN =>
      let snap := createSnapshot b
      let cm := allChickenMoves snap
      let keep := cm.filter (fun m => decide (fingerprint (applyStepMove snap m) ∉ recent))
      let use := if keep.isEmpty then cm else keep
      match rootLoop (fun v bv => XV.lt bv v)
          (fun m => minimax (depth - 1) (applyStepMove snap m) Player.FOX XV.ninf XV.pinf)
          (fun m => m) use none with
      | some (m, _) => m
      | none => ⟨⟨2, 3⟩, ⟨2, 3⟩⟩

/-!
Concrete scenario boards. Positions are set up exactly as the repository's
unit tests do (clear the board via `_setStateForTest`, then place pieces).
-/

/-- A board with the given pieces and everything else empty. -/
def mkBoard (turn : Player) (foxes chickens : List Point) : Board :=
  { state := fun p =>
      if p ∈ foxes then State.FOX
      else if p ∈ chickens then State.CHICKEN
      else State.EMPTY
    playersTurn := turn
    winingReason := none }

/-- Fox to move with a single capturable chicken: fox (3,2), chicken (3,3). -/
def bW : Board := mkBoard Player.FOX [⟨3, 2⟩] [⟨3, 3⟩]

/-- A two-capture chain: fox (3,2), chickens (3,3) and (2,4). -/
def b2 : Board := mkBoard Player.FOX [⟨3, 2⟩] [⟨3, 3⟩, ⟨2, 4⟩]

/-- A three-capture chain: fox (3,2), chickens (3,3), (2,4) and (1,3). -/
def b3 : Board := mkBoard Player.FOX [⟨3, 2⟩] [⟨3, 3⟩, ⟨2, 4⟩, ⟨1, 3⟩]

/-- Same position as `bW`, used for the search scenario (one mandatory jump). -/
def b4 : Board := mkBoard Player.FOX [⟨3, 2⟩] [⟨3, 3⟩]

/-- The leaf evaluation exactly as claim C5 words it: base from the alive /
stall counts, plus the stall bonus, minus 5 when any terminal fox jump exists,
minus `min(danger, 6)`. -/
def scoreSpecC5 (snap : Snap) : ℚ :=
  let alive := countChickensAlive snap
  let inStall := countChickensInStallM snap
  let base : ℚ :=
    if alive < 9 then 0
    else if inStall = 9 then 1000
    else 2 * (alive : ℚ) + 3 * (inStall : ℚ)
  let danger := (allFoxMoves snap).2.length
  base + (inStall : ℚ) * (1 / 2) - (if 0 < danger then 5 else 0) - ((min danger 6 : Nat) : ℚ)

/-!
Sequences of attempted actions, for the piece-count invariant (C8).
-/

/-- One call to `Board.attemptMove` with its caller-supplied arguments. -/
structure Request where
  sel : Option Point
  toP : Point
  mv : List Point
  aj : List JumpOption
  alj : List JumpOption

/-- The board after one `attemptMove` call. -/
def applyReq (b : Board) (r : Request) : Board :=
  (b.attemptMove r.sel r.toP r.mv r.aj r.alj).board

/-- The board after a sequence of `attemptMove` calls. -/
def runRequests (b : Board) : List Request → Board
  | [] => b
  | r :: rs => runRequests (applyReq b r) rs

/-- Every request that names a selected piece selects an on-board cell that
actually holds a piece at the moment the request is applied (the caller
contract: the UI only lets the mover select one of their own pieces). -/
def selOk (b : Board) : List Request → Prop
  | [] => True
  | r :: rs =>
      (∀ s, r.sel = some s → s ∈ boardPoints ∧ b.state s ≠ State.EMPTY) ∧
      selOk (applyReq b r) rs

/-- Foxes plus chickens currently on the board. -/
def countPieces (b : Board) : Nat :=
  boardPoints.countP (fun p => !(b.state p == State.EMPTY))

/-!
Helper lemmas.
-/

theorem boardPoints_nodup : boardPoints.Nodup := by decide

theorem boardPoints_valid : ∀ p ∈ boardPoints, validCell p = true := by decide

theorem moveTo_some_turn (b : Board) (s toP : Point) :
    (b.moveTo (some s) toP).playersTurn = otherPlayer b.playersTurn := by
  simp only [Board.moveTo]
  split <;> split <;> rfl

theorem jumpTo_some_turn (b : Board) (s : Point) (o : JumpOption) :
    (b.jumpTo (some s) o).playersTurn = otherPlayer b.playersTurn := by
  simp only [Board.jumpTo]
  split <;> rfl

theorem punish_turn (b : Board) (p : Point) :
    (b.punish p).playersTurn = otherPlayer b.playersTurn := by
  simp only [Board.punish]
  split <;> rfl

theorem punish_state (b : Board) (p : Point) :
    (b.punish p).state = setCell b.state p State.EMPTY := by
  simp only [Board.punish]
  split <;> rfl

theorem moveTo_some_state (b : Board) (s toP : Point) :
    (b.moveTo (some s) toP).state =
      setCell (setCell b.state s State.EMPTY) toP
        (if b.playersTurn == Player.CHICKEN then State.CHICKEN else State.FOX) := by
  simp only [Board.moveTo]
  split <;> split <;> rfl

theorem jumpTo_some_state (b : Board) (s : Point) (o : JumpOption) :
    (b.jumpTo (some s) o).state =
      setCell (setCell (o.toBeRemovedChickens.foldl (fun acc q => setCell acc q State.EMPTY) b.state)
        s State.EMPTY) o.endP State.FOX := by
  simp only [Board.jumpTo]
  split <;> rfl

/-- Generic monotonicity: a pointwise weaker predicate counts no more. -/
theorem countP_le_of_imp (l : List Point) (f g : Point → Bool)
    (h : ∀ p ∈ l, f p = true → g p = true) : l.countP f ≤ l.countP g :=
  List.countP_mono_left h

/-- Strict version at a distinguished member where `f` lost a hit. -/
theorem countP_lt_of_imp (l : List Point) (hn : l.Nodup) (f g : Point → Bool) (s : Point)
    (hs : s ∈ l) (h : ∀ p ∈ l, f p = true → g p = true)
    (hfs : f s = false) (hgs : g s = true) : l.countP f < l.countP g := by
  induction l with
  | nil => cases hs
  | cons a t ih =>
      rcases List.mem_cons.mp hs with rfl | hst
      · have hft : ∀ p ∈ t, f p = true → g p = true := fun p hp => h p (List.mem_cons_of_mem _ hp)
        have := countP_le_of_imp t f g hft
        simp [List.countP_cons, hfs, hgs]
        omega
      · have hat : t.Nodup := (List.nodup_cons.mp hn).2
        have hlt := ih hat hst (fun p hp => h p (List.mem_cons_of_mem _ hp))
        by_cases hfa : f a = true
        · have hga := h a (List.mem_cons_self a t) hfa
          simp [List.countP_cons, hfa, hga]
          omega
        · simp [List.countP_cons, Bool.of_not_eq_true hfa]
          omega

theorem attemptMove_eq_moved (b : Board) (sel : Option Point) (toP : Point)
    (mv : List Point) (aj alj : List JumpOption)
    (h1 : (mv.find? (fun p => p.x == toP.x && p.y == toP.y)).isSome = true)
    (h2 : alj.isEmpty = true) :
    b.attemptMove sel toP mv aj alj = ⟨Outcome.moved, none, b.moveTo sel toP⟩ := by
  simp [Board.attemptMove, h1, h2]

theorem attemptMove_eq_punishNotJumping (b : Board) (sel : Option Point) (toP : Point)
    (mv : List Point) (aj alj : List JumpOption)
    (h1 : (mv.find? (fun p => p.x == toP.x && p.y == toP.y)).isSome = true)
    (h2 : alj.isEmpty = false) :
    b.attemptMove sel toP mv aj alj =
      ⟨Outcome.punished, some "Nice try - jumping is mandatory when available.",
        b.punishForNotJumping alj⟩ := by
  simp [Board.attemptMove, h1, h2]

theorem attemptMove_eq_jumped (b : Board) (sel : Option Point) (toP : Point)
    (mv : List Point) (aj alj : List JumpOption) (o : JumpOption)
    (h1 : (mv.find? (fun p => p.x == toP.x && p.y == toP.y)).isSome = false)
    (hj : aj.find? (fun o2 => o2.endP.x == toP.x && o2.endP.y == toP.y) = some o)
    (hg : o.good = true) :
    b.attemptMove sel toP mv aj alj = ⟨Outcome.jumped, none, b.jumpTo sel o⟩ := by
  simp [Board.attemptMove, h1, hj, hg]

theorem attemptMove_eq_punishContinuable (b : Board) (sel : Option Point) (toP : Point)
    (mv : List Point) (aj alj : List JumpOption) (o : JumpOption)
    (h1 : (mv.find? (fun p => p.x == toP.x && p.y == toP.y)).isSome = false)
    (hj : aj.find? (fun o2 => o2.endP.x == toP.x && o2.endP.y == toP.y) = some o)
    (hg : o.good = false) :
    b.attemptMove sel toP mv aj alj =
      ⟨Outcome.punished, some "You must keep jumping until the move is finished.",
        b.punishForJump sel o⟩ := by
  simp [Board.attemptMove, h1, hj, hg]

theorem attemptMove_eq_ignored (b : Board) (sel : Option Point) (toP : Point)
    (mv : List Point) (aj alj : List JumpOption)
    (h1 : (mv.find? (fun p => p.x == toP.x && p.y == toP.y)).isSome = false)
    (hj : aj.find? (fun o2 => o2.endP.x == toP.x && o2.endP.y == toP.y) = none) :
    b.attemptMove sel toP mv aj alj = ⟨Outcome.ignored, none, b⟩ := by
  simp [Board.attemptMove, h1, hj]

/-- Changing the predicate at a single point raises the count by at most one. -/
theorem countP_le_succ_of_eq_off (l : List Point) (hn : l.Nodup) (f g : Point → Bool)
    (e : Point) (h : ∀ p ∈ l, p ≠ e → f p = g p) : l.countP f ≤ l.countP g + 1 := by
  induction l with
  | nil => simp
  | cons a t ih =>
      have hat : t.Nodup := (List.nodup_cons.mp hn).2
      by_cases hae : a = e
      · subst hae
        have hte : ∀ p ∈ t, f p = g p := by
          intro p hp
          have hpa : p ≠ a := by
            intro hpa
            exact (List.nodup_cons.mp hn).1 (hpa ▸ hp)
          exact h p (List.mem_cons_of_mem _ hp) hpa
        have : t.countP f = t.countP g := by
          apply Nat.le_antisymm
          · exact countP_le_of_imp t f g (fun p hp hf => (hte p hp) ▸ hf)
          · exact countP_le_of_imp t g f (fun p hp hg => (hte p hp).symm ▸ hg)
        simp [List.countP_cons, this]
        split_ifs <;> omega
      · have hfa : f a = g a := h a (List.mem_cons_self a t) hae
        have := ih hat (fun p hp => h p (List.mem_cons_of_mem _ hp))
        simp [List.countP_cons, hfa]
        split_ifs <;> omega

theorem XV.le_refl (a : XV) : a.le a = true := by
  cases a <;> simp [XV.le]

theorem XV.le_trans {a b c : XV} (h1 : a.le b = true) (h2 : b.le c = true) :
    a.le c = true := by
  cases a <;> cases b <;> cases c <;> simp_all [XV.le]
  exact h1.trans h2

theorem XV.lt_imp_le {a b : XV} (h : a.lt b = true) : a.le b = true := by
  cases a <;> cases b <;> simp_all [XV.le, XV.lt]
  exact h.le

theorem XV.not_lt_imp_le {a b : XV} (h : a.lt b = false) : b.le a = true := by
  cases a <;> cases b <;> simp_all [XV.le, XV.lt]

/-- Invariant of the root selection fold (minimizing flavor, `better = lt`):
starting from accumulator `(bm, bv)`, either some list element with minimal
value is picked, or the accumulator survives and bounds the whole list. -/
theorem rootLoop_lt_min {α M : Type} (eval : α → XV) (mk : α → M) :
    ∀ (l : List α) (bm : M) (bv : XV),
      (∃ c ∈ l, rootLoop XV.lt eval mk l (some (bm, bv)) = some (mk c, eval c) ∧
        XV.le (eval c) bv = true ∧ ∀ c' ∈ l, XV.le (eval c) (eval c') = true) ∨
      (rootLoop XV.lt eval mk l (some (bm, bv)) = some (bm, bv) ∧
        ∀ c' ∈ l, XV.le bv (eval c') = true) := by
  intro l
  induction l with
  | nil =>
      intro bm bv
      right
      exact ⟨rfl, by simp⟩
  | cons c rest ih =>
      intro bm bv
      by_cases hc : XV.lt (eval c) bv = true
      · have hrl : rootLoop XV.lt eval mk (c :: rest) (some (bm, bv)) =
            rootLoop XV.lt eval mk rest (some (mk c, eval c)) := by
          simp [rootLoop, hc]
        rcases ih (mk c) (eval c) with ⟨d, hd, hrd, hle, hall⟩ | ⟨hrd, hall⟩
        · refine Or.inl ⟨d, List.mem_cons_of_mem _ hd, hrl ▸ hrd,
            XV.le_trans hle (XV.lt_imp_le hc), fun c' hc' => ?_⟩
          rcases List.mem_cons.mp hc' with rfl | h'
          · exact hle
          · exact hall c' h'
        · refine Or.inl ⟨c, List.mem_cons_self c rest, hrl ▸ hrd,
            XV.lt_imp_le hc, fun c' hc' => ?_⟩
          rcases List.mem_cons.mp hc' with rfl | h'
          · exact XV.le_refl _
          · exact hall c' h'
      · have hcf : XV.lt (eval c) bv = false := by
          cases h : XV.lt (eval c) bv
          · rfl
          · exact absurd h hc
        have hble : XV.le bv (eval c) = true := XV.not_lt_imp_le hcf
        have hrl : rootLoop XV.lt eval mk (c :: rest) (some (bm, bv)) =
            rootLoop XV.lt eval mk rest (some (bm, bv)) := by
          simp [rootLoop, hcf]
        rcases ih bm bv with ⟨d, hd, hrd, hle, hall⟩ | ⟨hrd, hall⟩
        · refine Or.inl ⟨d, List.mem_cons_of_mem _ hd, hrl ▸ hrd, hle, fun c' hc' => ?_⟩
          rcases List.mem_cons.mp hc' with rfl | h'
          · exact XV.le_trans hle hble
          · exact hall c' h'
        · refine Or.inr ⟨hrl ▸ hrd, fun c' hc' => ?_⟩
          rcases List.mem_cons.mp hc' with rfl | h'
          · exact hble
          · exact hall c' h'

/-- The root selection fold over a nonempty list with empty accumulator picks
a minimal-value element (first such, by construction). -/
theorem rootLoop_lt_pick {α M : Type} (eval : α → XV) (mk : α → M) (l : List α)
    (hl : l ≠ []) :
    ∃ c ∈ l, rootLoop XV.lt eval mk l none = some (mk c, eval c) ∧
      ∀ c' ∈ l, XV.le (eval c) (eval c') = true := by
  cases l with
  | nil => exact absurd rfl hl
  | cons c rest =>
      have hrl : rootLoop XV.lt eval mk (c :: rest) none =
          rootLoop XV.lt eval mk rest (some (mk c, eval c)) := by
        simp [rootLoop]
      rcases rootLoop_lt_min eval mk rest (mk c) (eval c) with ⟨d, hd, hrd, hle, hall⟩ | ⟨hrd, hall⟩
      · refine ⟨d, List.mem_cons_of_mem _ hd, hrl ▸ hrd, fun c' hc' => ?_⟩
        rcases List.mem_cons.mp hc' with rfl | h'
        · exact hle
        · exact hall c' h'
      · refine ⟨c, List.mem_cons_self c rest, hrl ▸ hrd, fun c' hc' => ?_⟩
        rcases List.mem_cons.mp hc' with rfl | h'
        · exact XV.le_refl _
        · exact hall c' h'

/-- Maximizing flavor of `rootLoop_lt_min` (`better v bv = lt bv v`). -/
theorem rootLoop_gt_max {α M : Type} (eval : α → XV) (mk : α → M) :
    ∀ (l : List α) (bm : M) (bv : XV),
      (∃ c ∈ l, rootLoop (fun v bv => XV.lt bv v) eval mk l (some (bm, bv)) = some (mk c, eval c) ∧
        XV.le bv (eval c) = true ∧ ∀ c' ∈ l, XV.le (eval c') (eval c) = true) ∨
      (rootLoop (fun v bv => XV.lt bv v) eval mk l (some (bm, bv)) = some (bm, bv) ∧
        ∀ c' ∈ l, XV.le (eval c') bv = true) := by
  intro l
  induction l with
  | nil =>
      intro bm bv
      right
      exact ⟨rfl, by simp⟩
  | cons c rest ih =>
      intro bm bv
      by_cases hc : XV.lt bv (eval c) = true
      · have hrl : rootLoop (fun v bv => XV.lt bv v) eval mk (c :: rest) (some (bm, bv)) =
            rootLoop (fun v bv => XV.lt bv v) eval mk rest (some (mk c, eval c)) := by
          simp [rootLoop, hc]
        rcases ih (mk c) (eval c) with ⟨d, hd, hrd, hle, hall⟩ | ⟨hrd, hall⟩
        · refine Or.inl ⟨d, List.mem_cons_of_mem _ hd, hrl ▸ hrd,
            XV.le_trans (XV.lt_imp_le hc) hle, fun c' hc' => ?_⟩
          rcases List.mem_cons.mp hc' with rfl | h'
          · exact hle
          · exact hall c' h'
        · refine Or.inl ⟨c, List.mem_cons_self c rest, hrl ▸ hrd,
            XV.lt_imp_le hc, fun c' hc' => ?_⟩
          rcases List.mem_cons.mp hc' with rfl | h'
          · exact XV.le_refl _
          · exact hall c' h'
      · have hcf : XV.lt bv (eval c) = false := by
          cases h : XV.lt bv (eval c)
          · rfl
          · exact absurd h hc
        have hble : XV.le (eval c) bv = true := XV.not_lt_imp_le hcf
        have hrl : rootLoop (fun v bv => XV.lt bv v) eval mk (c :: rest) (some (bm, bv)) =
            rootLoop (fun v bv => XV.lt bv v) eval mk rest (some (bm, bv)) := by
          simp [rootLoop, hcf]
        rcases ih bm bv with ⟨d, hd, hrd, hle, hall⟩ | ⟨hrd, hall⟩
        · refine Or.inl ⟨d, List.mem_cons_of_mem _ hd, hrl ▸ hrd, hle, fun c' hc' => ?_⟩
          rcases List.mem_cons.mp hc' with rfl | h'
          · exact XV.le_trans hble hle
          · exact hall c' h'
        · refine Or.inr ⟨hrl ▸ hrd, fun c' hc' => ?_⟩
          rcases List.mem_cons.mp hc' with rfl | h'
          · exact hble
          · exact hall c' h'

/-- The maximizing root fold over a nonempty list picks a maximal element. -/
theorem rootLoop_gt_pick {α M : Type} (eval : α → XV) (mk : α → M) (l : List α)
    (hl : l ≠ []) :
    ∃ c ∈ l, rootLoop (fun v bv => XV.lt bv v) eval mk l none = some (mk c, eval c) ∧
      ∀ c' ∈ l, XV.le (eval c') (eval c) = true := by
  cases l with
  | nil => exact absurd rfl hl
  | cons c rest =>
      have hrl : rootLoop (fun v bv => XV.lt bv v) eval mk (c :: rest) none =
          rootLoop (fun v bv => XV.lt bv v) eval mk rest (some (mk c, eval c)) := by
        simp [rootLoop]
      rcases rootLoop_gt_max eval mk rest (mk c) (eval c) with ⟨d, hd, hrd, hle, hall⟩ | ⟨hrd, hall⟩
      · refine ⟨d, List.mem_cons_of_mem _ hd, hrl ▸ hrd, fun c' hc' => ?_⟩
        rcases List.mem_cons.mp hc' with rfl | h'
        · exact hle
        · exact hall c' h'
      · refine ⟨c, List.mem_cons_self c rest, hrl ▸ hrd, fun c' hc' => ?_⟩
        rcases List.mem_cons.mp hc' with rfl | h'
        · exact XV.le_refl _
        · exact hall c' h'

/-!
Claim theorems.
-/

/-- C5: for every snapshot the chicken-perspective leaf evaluation equals the
claimed formula: base = 0 if fewer than 9 chickens are alive, else 1000 if
exactly 9 chickens are in the stall, else 2*alive + 3*inStall; the final
score is base + inStall*0.5, minus 5 when the number of terminal fox jumps is
positive, minus min(danger, 6). -/
theorem score_matches_claimed_formula (snap : Snap) :
    scoreForChickens snap = scoreSpecC5 snap := by
  simp only [scoreForChickens, scoreSpecC5, evaluate]
  by_cases h : 0 < (allFoxMoves snap).2.length
  · simp only [if_pos h]
    split_ifs <;> ring_nf
  · have h0 : (allFoxMoves snap).2.length = 0 := by omega
    simp only [if_neg h, h0]
    norm_num
    split_ifs <;> ring_nf

/-- C10: calling `attemptMove` with an undefined selected piece still returns
`moved` on the plain-move path, `jumped` on the Terminal-jump path and
`punished` on the Continuable-jump path, while the board (cells, side to
move, terminal-outcome description) is left completely unchanged. -/
theorem attemptMove_none_reports_without_mutation
    (b : Board) (toP : Point) (mv : List Point) (aj alj : List JumpOption) :
    ((mv.find? (fun p => p.x == toP.x && p.y == toP.y)).isSome = true → alj = [] →
      (b.attemptMove none toP mv aj alj).outcome = Outcome.moved ∧
      (b.attemptMove none toP mv aj alj).board = b) ∧
    (∀ o : JumpOption,
      (mv.find? (fun p => p.x == toP.x && p.y == toP.y)) = none →
      aj.find? (fun o2 => o2.endP.x == toP.x && o2.endP.y == toP.y) = some o →
      ((o.good = true →
        (b.attemptMove none toP mv aj alj).outcome = Outcome.jumped ∧
        (b.attemptMove none toP mv aj alj).board = b) ∧
      (o.good = false →
        (b.attemptMove none toP mv aj alj).outcome = Outcome.punished ∧
        (b.attemptMove none toP mv aj alj).board = b))) := by
  constructor
  · intro hm hal
    subst hal
    rw [attemptMove_eq_moved b none toP mv aj [] hm rfl]
    exact ⟨rfl, rfl⟩
  · intro o hm hj
    have hm' : (mv.find? (fun p => p.x == toP.x && p.y == toP.y)).isSome = false := by
      simp [hm]
    constructor
    · intro hg
      rw [attemptMove_eq_jumped b none toP mv aj alj o hm' hj hg]
      exact ⟨rfl, rfl⟩
    · intro hg
      rw [attemptMove_eq_punishContinuable b none toP mv aj alj o hm' hj hg]
      exact ⟨rfl, rfl⟩

theorem attemptMove_none_reports_without_mutation_witness :
    (initialBoard.attemptMove none ⟨0, 2⟩ [⟨0, 2⟩] [] []).outcome = Outcome.moved ∧
    (initialBoard.attemptMove none ⟨0, 2⟩ [⟨0, 2⟩] [] []).board = initialBoard :=
  (attemptMove_none_reports_without_mutation initialBoard ⟨0, 2⟩ [⟨0, 2⟩] [] []).1
    (by decide) rfl

/-- C7 counterexample: an `attemptMove` call that returns outcome `moved`
without the side to move alternating (undefined selected piece): the claim
"for every call ... the side to move alternates exactly once when the
returned outcome is moved/jumped/punished" is false as stated. -/
theorem attemptMove_moved_without_alternation :
    (initialBoard.attemptMove none ⟨1, 2⟩ [⟨1, 2⟩] [] []).outcome = Outcome.moved ∧
    (initialBoard.attemptMove none ⟨1, 2⟩ [⟨1, 2⟩] [] []).board.playersTurn
      = initialBoard.playersTurn := by
  exact ⟨rfl, rfl⟩

/-- C7 (amended): for every call to `attemptMove` with a DEFINED selected
piece, the side to move alternates exactly once when the returned outcome is
moved, jumped or punished, and the whole board state is unchanged when the
outcome is ignored. (With an undefined selected piece only the
punished-for-not-jumping path alternates; the other mutating paths leave the
board unchanged, see C10.) -/
theorem attemptMove_turn_alternation (b : Board) (s toP : Point)
    (mv : List Point) (aj alj : List JumpOption) :
    ((b.attemptMove (some s) toP mv aj alj).outcome ≠ Outcome.ignored →
      (b.attemptMove (some s) toP mv aj alj).board.playersTurn = otherPlayer b.playersTurn) ∧
    ((b.attemptMove (some s) toP mv aj alj).outcome = Outcome.ignored →
      (b.attemptMove (some s) toP mv aj alj).board = b) := by
  cases hvm : (mv.find? (fun p => p.x == toP.x && p.y == toP.y)).isSome with
  | true =>
      cases halj : alj.isEmpty with
      | true =>
          rw [attemptMove_eq_moved b (some s) toP mv aj alj hvm halj]
          exact ⟨fun _ => moveTo_some_turn b s toP, fun h => Outcome.noConfusion h⟩
      | false =>
          rw [attemptMove_eq_punishNotJumping b (some s) toP mv aj alj hvm halj]
          cases alj with
          | nil => simp at halj
          | cons j r =>
              refine ⟨fun _ => ?_, fun h => Outcome.noConfusion h⟩
              simp only [Board.punishForNotJumping]
              exact punish_turn b j.fromP
  | false =>
      cases hj : aj.find? (fun o2 => o2.endP.x == toP.x && o2.endP.y == toP.y) with
      | none =>
          rw [attemptMove_eq_ignored b (some s) toP mv aj alj hvm hj]
          exact ⟨fun h => absurd rfl h, fun _ => rfl⟩
      | some o =>
          cases hg : o.good with
          | true =>
              rw [attemptMove_eq_jumped b (some s) toP mv aj alj o hvm hj hg]
              exact ⟨fun _ => jumpTo_some_turn b s o, fun h => Outcome.noConfusion h⟩
          | false =>
              rw [attemptMove_eq_punishContinuable b (some s) toP mv aj alj o hvm hj hg]
              refine ⟨fun _ => ?_, fun h => Outcome.noConfusion h⟩
              simp only [Board.punishForJump]
              exact punish_turn b s

theorem attemptMove_turn_alternation_witness :
    (initialBoard.attemptMove (some ⟨0, 3⟩) ⟨0, 2⟩ [⟨0, 2⟩] [] []).outcome ≠ Outcome.ignored ∧
    (initialBoard.attemptMove (some ⟨0, 3⟩) ⟨0, 2⟩ [⟨0, 2⟩] [] []).board.playersTurn
      = otherPlayer initialBoard.playersTurn :=
  ⟨by decide,
   (attemptMove_turn_alternation initialBoard ⟨0, 3⟩ ⟨0, 2⟩ [⟨0, 2⟩] [] []).1 (by decide)⟩

/-- C9 counterexample: on the chicken side `getAllMoves` is NOT the union of
the chickens' step moves — it is empty, even though a chicken has a legal
step move. -/
theorem allMoves_empty_for_chicken_side :
    initialBoard.playersTurn = Player.CHICKEN ∧
    initialBoard.getAllMoves = [] ∧
    initialBoard.state ⟨0, 3⟩ = State.CHICKEN ∧
    initialBoard.getMoves ⟨0, 3⟩ = [⟨0, 2⟩] := by
  refine ⟨rfl, ?_, rfl, ?_⟩ <;> decide

/-- C9 (amended): `getAllMoves` and `getAllJumps` both return the empty list
whenever it is the chickens' turn; when it is the foxes' turn they return
exactly the union (over every fox on the board) of that fox's step moves,
respectively jump options. -/
theorem allMoves_allJumps_characterization (b : Board) :
    (b.playersTurn = Player.CHICKEN → b.getAllMoves = [] ∧ b.getAllJumps = []) ∧
    (∀ q : Point, q ∈ b.getAllMoves ↔
      b.playersTurn = Player.FOX ∧ ∃ p ∈ boardPoints, b.state p = State.FOX ∧ q ∈ b.getMoves p) ∧
    (∀ o : JumpOption, o ∈ b.getAllJumps ↔
      b.playersTurn = Player.FOX ∧ ∃ p ∈ boardPoints, b.state p = State.FOX ∧ o ∈ b.getJumps p) := by
  cases hb : b.playersTurn with
  | CHICKEN =>
      refine ⟨fun _ => ⟨?_, ?_⟩, fun q => ?_, fun o => ?_⟩
      · simp [Board.getAllMoves, hb]
      · simp [Board.getAllJumps, hb]
      · simp [Board.getAllMoves, hb]
      · simp [Board.getAllJumps, hb]
  | FOX =>
      have hbne : (b.playersTurn == Player.CHICKEN) = false := by rw [hb]; rfl
      refine ⟨fun h => Player.noConfusion h, fun q => ?_, fun o => ?_⟩
      · simp only [Board.getAllMoves, hbne, Bool.false_eq_true, if_false,
          List.mem_flatten, List.mem_map, List.mem_filter, beq_iff_eq]
        constructor
        · rintro ⟨l, ⟨p, ⟨hp, hfox⟩, rfl⟩, hq⟩
          exact ⟨trivial, p, hp, hfox, hq⟩
        · rintro ⟨_, p, hp, hfox, hq⟩
          exact ⟨b.getMoves p, ⟨p, ⟨hp, hfox⟩, rfl⟩, hq⟩
      · simp only [Board.getAllJumps, Board.getJumps, hbne, Bool.false_eq_true, if_false,
          List.mem_flatten, List.mem_map, List.mem_filter, beq_iff_eq]
        constructor
        · rintro ⟨l, ⟨p, ⟨hp, hfox⟩, rfl⟩, ho⟩
          exact ⟨trivial, p, hp, hfox, ho⟩
        · rintro ⟨_, p, hp, hfox, ho⟩
          exact ⟨getJumpsCellsF jumpFuel b.state p [] none, ⟨p, ⟨hp, hfox⟩, rfl⟩, ho⟩

theorem jumpEngine_fromP :
    ∀ (n : Nat) (st : Point → State) (pt : Point) (tbr : List Point) (fr : Option Point)
      (wl : List Point) (o : JumpOption),
      o ∈ jumpEngine n st pt tbr fr wl → o.fromP = fr.getD pt := by
  intro n
  induction n with
  | zero =>
      intro st pt tbr fr wl o ho
      simp [jumpEngine] at ho
  | succ n ih =>
      intro st pt tbr fr wl o ho
      cases wl with
      | nil => simp [jumpEngine] at ho
      | cons cc rest =>
          simp only [jumpEngine] at ho
          split at ho
          · rcases List.mem_append.mp ho with hin | hloop
            · rcases List.mem_cons.mp hin with rfl | hchain
              · rfl
              · simpa using ih _ _ _ _ _ _ hchain
            · exact ih _ _ _ _ _ _ hloop
          · exact ih _ _ _ _ _ _ ho

theorem getJumpsCellsF_fromP (c : Nat) (st : Point → State) (pt : Point) (tbr : List Point)
    (fr : Option Point) (o : JumpOption) (ho : o ∈ getJumpsCellsF c st pt tbr fr) :
    o.fromP = fr.getD pt :=
  jumpEngine_fromP c st pt tbr fr _ o ho

/-- Every option of `getAllJumps` originates at a fox cell on the board. -/
theorem mem_getAllJumps_origin (b : Board) (o : JumpOption) (ho : o ∈ b.getAllJumps) :
    ∃ p ∈ boardPoints, b.state p = State.FOX ∧ o.fromP = p := by
  unfold Board.getAllJumps at ho
  by_cases hb : (b.playersTurn == Player.CHICKEN) = true
  · rw [if_pos hb] at ho
    cases ho
  · rw [if_neg hb] at ho
    simp only [List.mem_flatten, List.mem_map, List.mem_filter, beq_iff_eq] at ho
    obtain ⟨l, ⟨p, ⟨hp, hfox⟩, rfl⟩, hol⟩ := ho
    exact ⟨p, hp, hfox, getJumpsCellsF_fromP jumpFuel b.state p [] none o hol⟩

/-- A nonempty `getAllJumps` implies it is the foxes' turn. -/
theorem getAllJumps_ne_nil_turn (b : Board) (h : b.getAllJumps ≠ []) :
    b.playersTurn = Player.FOX := by
  cases hp : b.playersTurn with
  | FOX => rfl
  | CHICKEN =>
      exfalso
      apply h
      simp [Board.getAllJumps, hp]

/-- C1: when the fox side's all-jumps list is nonempty and the destination is
contained in the supplied legal step-move list, `attemptMove` returns
`punished`; the fox standing at the origin of the first entry of the supplied
all-jumps list is removed (its cell set to EMPTY) with every other cell
unchanged (no relocation), and the side to move alternates from fox to
chicken. -/
theorem attemptMove_mandatory_jump_punishes
    (b : Board) (sel : Option Point) (toP : Point) (mv : List Point)
    (aj : List JumpOption) (j : JumpOption) (rest : List JumpOption)
    (hall : b.getAllJumps = j :: rest)
    (hmv : (mv.find? (fun p => p.x == toP.x && p.y == toP.y)).isSome = true) :
    (b.attemptMove sel toP mv aj (j :: rest)).outcome = Outcome.punished ∧
    (b.attemptMove sel toP mv aj (j :: rest)).board.state j.fromP = State.EMPTY ∧
    (∀ q, q ≠ j.fromP → (b.attemptMove sel toP mv aj (j :: rest)).board.state q = b.state q) ∧
    b.playersTurn = Player.FOX ∧
    (b.attemptMove sel toP mv aj (j :: rest)).board.playersTurn = Player.CHICKEN := by
  have hturn : b.playersTurn = Player.FOX :=
    getAllJumps_ne_nil_turn b (by rw [hall]; exact fun h => List.noConfusion h)
  have hjmem : j ∈ b.getAllJumps := by
    rw [hall]; exact List.mem_cons_self j rest
  obtain ⟨p, hp, _, hfromP⟩ := mem_getAllJumps_origin b j hjmem
  have hvalid : validCell j.fromP = true := by
    rw [hfromP]; exact boardPoints_valid p hp
  rw [attemptMove_eq_punishNotJumping b sel toP mv aj (j :: rest) hmv rfl]
  refine ⟨rfl, ?_, ?_, hturn, ?_⟩
  · simp only [Board.punishForNotJumping]
    rw [punish_state]
    simp [setCell, hvalid]
  · intro q hq
    simp only [Board.punishForNotJumping]
    rw [punish_state]
    simp [setCell, hq]
  · simp only [Board.punishForNotJumping]
    rw [punish_turn, hturn]
    rfl

theorem attemptMove_mandatory_jump_punishes_witness :
    (bW.attemptMove (some ⟨3, 2⟩) ⟨2, 2⟩ (bW.getMoves ⟨3, 2⟩) [] bW.getAllJumps).outcome
      = Outcome.punished ∧
    (bW.attemptMove (some ⟨3, 2⟩) ⟨2, 2⟩ (bW.getMoves ⟨3, 2⟩) [] bW.getAllJumps).board.state
      ⟨3, 2⟩ = State.EMPTY ∧
    (bW.attemptMove (some ⟨3, 2⟩) ⟨2, 2⟩ (bW.getMoves ⟨3, 2⟩) [] bW.getAllJumps).board.state
      ⟨3, 3⟩ = State.CHICKEN ∧
    (bW.attemptMove (some ⟨3, 2⟩) ⟨2, 2⟩ (bW.getMoves ⟨3, 2⟩) [] bW.getAllJumps).board.playersTurn
      = Player.CHICKEN := by
  have hall : bW.getAllJumps =
      (⟨true, [⟨3, 3⟩], ⟨3, 2⟩, ⟨3, 4⟩⟩ : JumpOption) ::
        [⟨true, [⟨3, 4⟩], ⟨3, 2⟩, ⟨3, 6⟩⟩] := by decide
  have T := attemptMove_mandatory_jump_punishes bW (some ⟨3, 2⟩) ⟨2, 2⟩
    (bW.getMoves ⟨3, 2⟩) [] _ _ hall (by decide)
  rw [hall]
  refine ⟨T.1, T.2.1, ?_, T.2.2.2.2⟩
  exact (T.2.2.1 ⟨3, 3⟩ (by decide)).trans (by decide)

/-- C2 counterexample: a fox jump that lands where a further capture is
available and completable; `legalJumps` (Cell.getJumpsCells) DOES emit the
in-progress one-capture prefix as an option (tagged not-good/Continuable), so
the claim that only the Terminal chain options are returned is false. -/
theorem legalJumps_emits_continuable_option :
    (⟨false, [⟨3, 3⟩], ⟨3, 2⟩, ⟨3, 4⟩⟩ : JumpOption) ∈ b2.getJumps ⟨3, 2⟩ := by decide

/-- The number of candidate points a cell connects to is at most 8, so every
initial `points` array of `Cell.getJumpsCells` is that short. -/
theorem jumpStartPoints_length_le (st : Point → State) (pt : Point) :
    (jumpStartPoints st pt).length ≤ 8 := by
  unfold jumpStartPoints getConnectedCells
  refine le_trans (List.length_filter_le _ _) ?_
  refine le_trans (List.length_filter_le _ _) ?_
  split_ifs <;> simp

/-- The worklist element at index `i` is processed with fuel `n - i`: the
engine emits the option for that element's jump step (tagged by whether its
continuation is empty) and emits every option of the continuation. -/
theorem jumpEngine_processes :
    ∀ (i n : Nat) (st : Point → State) (pt : Point) (tbr : List Point) (fr : Option Point)
      (wl : List Point) (cc : Point),
      wl[i]? = some cc → i < n →
      validCell ⟨cc.x + (cc.x - pt.x), cc.y + (cc.y - pt.y)⟩ = true →
      st ⟨cc.x + (cc.x - pt.x), cc.y + (cc.y - pt.y)⟩ = State.EMPTY →
      ((⟨(jumpEngine (n - i - 1) (setCell st cc State.EMPTY)
            ⟨cc.x + (cc.x - pt.x), cc.y + (cc.y - pt.y)⟩ [cc] (some (fr.getD pt))
            (jumpStartPoints (setCell st cc State.EMPTY)
              ⟨cc.x + (cc.x - pt.x), cc.y + (cc.y - pt.y)⟩)).isEmpty,
          cc :: tbr, fr.getD pt,
          ⟨cc.x + (cc.x - pt.x), cc.y + (cc.y - pt.y)⟩⟩ : JumpOption)
        ∈ jumpEngine n st pt tbr fr wl ∧
      ∀ o ∈ jumpEngine (n - i - 1) (setCell st cc State.EMPTY)
          ⟨cc.x + (cc.x - pt.x), cc.y + (cc.y - pt.y)⟩ [cc] (some (fr.getD pt))
          (jumpStartPoints (setCell st cc State.EMPTY)
            ⟨cc.x + (cc.x - pt.x), cc.y + (cc.y - pt.y)⟩),
        o ∈ jumpEngine n st pt tbr fr wl) := by
  intro i
  induction i with
  | zero =>
      intro n st pt tbr fr wl cc hwl hn hv he
      cases wl with
      | nil => simp at hwl
      | cons d rest =>
          have hd : d = cc := by simpa using hwl
          subst hd
          cases n with
          | zero => omega
          | succ m =>
              have hm : m + 1 - 0 - 1 = m := by omega
              rw [hm]
              simp only [jumpEngine]
              rw [if_pos ⟨hv, he⟩]
              constructor
              · exact List.mem_append_left _ (List.mem_cons_self _ _)
              · intro o ho
                exact List.mem_append_left _ (List.mem_cons_of_mem _ ho)
  | succ k ih =>
      intro n st pt tbr fr wl cc hwl hn hv he
      cases wl with
      | nil => simp at hwl
      | cons d rest =>
          have hrest : rest[k]? = some cc := by simpa using hwl
          cases n with
          | zero => omega
          | succ m =>
              have hkm : k < m := by omega
              have hfuel : m + 1 - (k + 1) - 1 = m - k - 1 := by omega
              rw [hfuel]
              simp only [jumpEngine]
              by_cases hcond : validCell ⟨d.x + (d.x - pt.x), d.y + (d.y - pt.y)⟩ = true ∧
                  st ⟨d.x + (d.x - pt.x), d.y + (d.y - pt.y)⟩ = State.EMPTY
              · rw [if_pos hcond]
                have hklen : k < rest.length := (List.getElem?_eq_some.mp hrest).1
                have hidx : (rest ++ [(⟨d.x + (d.x - pt.x), d.y + (d.y - pt.y)⟩ : Point)])[k]?
                    = some cc := by
                  rw [List.getElem?_append, if_pos hklen]
                  exact hrest
                have IH := ih m st pt tbr fr
                  (rest ++ [(⟨d.x + (d.x - pt.x), d.y + (d.y - pt.y)⟩ : Point)]) cc
                  hidx hkm hv he
                exact ⟨List.mem_append_right _ IH.1,
                  fun o ho => List.mem_append_right _ (IH.2 o ho)⟩
              · rw [if_neg hcond]
                exact ih m st pt tbr fr rest cc hrest hkm hv he

/-- Every option the search engine's jump enumeration emits extends the
incoming captured list by at least one cell. -/
theorem getFoxJumpsInternalF_cap_lt :
    ∀ (f : Nat) (snap : Snap) (x y : Int) (cap : List Point) (fr : Point)
      (o : MatrixJumpOption),
      o ∈ getFoxJumpsInternalF f snap x y cap fr →
      cap.length < o.toBeRemovedChickens.length := by
  intro f
  induction f with
  | zero =>
      intro snap x y cap fr o ho
      simp [getFoxJumpsInternalF] at ho
  | succ f ih =>
      intro snap x y cap fr o ho
      simp only [getFoxJumpsInternalF, List.mem_flatten, List.mem_map] at ho
      obtain ⟨l, ⟨mid, hmid, rfl⟩, hol⟩ := ho
      split at hol
      · split at hol
        · rcases List.mem_singleton.mp hol with rfl
          simp
        · have := ih _ _ _ _ _ _ hol
          simp only [List.length_cons] at this
          omega
      · simp at hol

/-- When a fox jump over `mid` has a nonempty capture continuation, the
search-engine enumeration emits every option of the continuation but never
the in-progress one-step prefix itself. -/
theorem getFoxJumpsInternal_no_prefix
    (f : Nat) (snap : Snap) (x y : Int) (cap : List Point) (fr : Point) (mid : Point)
    (hmid : mid ∈ (getConnectedPoints x y false).filter (fun p => snap p == State.CHICKEN))
    (hval : isValidCell (mid.x + (mid.x - x)) (mid.y + (mid.y - y)) = true)
    (hemp : snap ⟨mid.x + (mid.x - x), mid.y + (mid.y - y)⟩ = State.EMPTY)
    (hne : getFoxJumpsInternalF f (fun q => if q = mid then State.EMPTY else snap q)
      (mid.x + (mid.x - x)) (mid.y + (mid.y - y)) (mid :: cap) fr ≠ []) :
    (∀ o ∈ getFoxJumpsInternalF f (fun q => if q = mid then State.EMPTY else snap q)
        (mid.x + (mid.x - x)) (mid.y + (mid.y - y)) (mid :: cap) fr,
      o ∈ getFoxJumpsInternalF (f + 1) snap x y cap fr) ∧
    (⟨mid :: cap, fr, ⟨mid.x + (mid.x - x), mid.y + (mid.y - y)⟩⟩ : MatrixJumpOption)
      ∉ getFoxJumpsInternalF (f + 1) snap x y cap fr := by
  have hchainE : (getFoxJumpsInternalF f (fun q => if q = mid then State.EMPTY else snap q)
      (mid.x + (mid.x - x)) (mid.y + (mid.y - y)) (mid :: cap) fr).isEmpty = false := by
    cases h : getFoxJumpsInternalF f (fun q => if q = mid then State.EMPTY else snap q)
        (mid.x + (mid.x - x)) (mid.y + (mid.y - y)) (mid :: cap) fr with
    | nil => exact absurd h hne
    | cons a as => rfl
  constructor
  · intro o ho
    simp only [getFoxJumpsInternalF, List.mem_flatten, List.mem_map]
    refine ⟨_, ⟨mid, hmid, rfl⟩, ?_⟩
    rw [if_pos ⟨hval, hemp⟩, hchainE]
    exact ho
  · intro hmem
    simp only [getFoxJumpsInternalF, List.mem_flatten, List.mem_map] at hmem
    obtain ⟨l, ⟨a, ha, rfl⟩, hol⟩ := hmem
    split at hol
    · split at hol
      next hisE =>
        have heq := List.mem_singleton.mp hol
        simp only [MatrixJumpOption.mk.injEq] at heq
        obtain ⟨hcap, -, -⟩ := heq
        have hma : mid = a := (List.cons.injEq _ _ _ _).mp hcap |>.1
        subst hma
        rw [hchainE] at hisE
        exact Bool.noConfusion hisE
      next =>
        have hlt := getFoxJumpsInternalF_cap_lt _ _ _ _ _ _ _ hol
        simp only [List.length_cons] at hlt
        omega
    · simp at hol

/-- C2 (amended): for every board, when a fox jump over an adjacent chicken
`cc` lands on an empty board cell, `legalJumps` (Cell.getJumpsCells) emits an
option for that jump step whose tag is Terminal (`good = true`) exactly when
the capture continuation enumerated from the landing cell (with `cc`
removed) is empty; when a further capture is available and completable the
continuation is nonempty, so that in-progress prefix IS emitted, tagged
Continuable (`good = false`), and every option of the continuation is
emitted alongside it. The search engine's `getFoxJumpsInternal`, in
contrast, emits every option of a nonempty continuation but never the
in-progress prefix itself — only Terminal descendants. -/
theorem legalJumps_continuable_plus_terminal :
    (∀ (b : Board) (pt cc : Point),
      cc ∈ jumpStartPoints b.state pt →
      validCell ⟨cc.x + (cc.x - pt.x), cc.y + (cc.y - pt.y)⟩ = true →
      b.state ⟨cc.x + (cc.x - pt.x), cc.y + (cc.y - pt.y)⟩ = State.EMPTY →
      ∃ i : Nat, (jumpStartPoints b.state pt)[i]? = some cc ∧
        (⟨(jumpEngine (jumpFuel - i - 1) (setCell b.state cc State.EMPTY)
              ⟨cc.x + (cc.x - pt.x), cc.y + (cc.y - pt.y)⟩ [cc] (some pt)
              (jumpStartPoints (setCell b.state cc State.EMPTY)
                ⟨cc.x + (cc.x - pt.x), cc.y + (cc.y - pt.y)⟩)).isEmpty,
            [cc], pt, ⟨cc.x + (cc.x - pt.x), cc.y + (cc.y - pt.y)⟩⟩ : JumpOption)
          ∈ b.getJumps pt ∧
        ∀ o ∈ jumpEngine (jumpFuel - i - 1) (setCell b.state cc State.EMPTY)
            ⟨cc.x + (cc.x - pt.x), cc.y + (cc.y - pt.y)⟩ [cc] (some pt)
            (jumpStartPoints (setCell b.state cc State.EMPTY)
              ⟨cc.x + (cc.x - pt.x), cc.y + (cc.y - pt.y)⟩),
          o ∈ b.getJumps pt) ∧
    (∀ (f : Nat) (snap : Snap) (x y : Int) (cap : List Point) (fr : Point) (mid : Point),
      mid ∈ (getConnectedPoints x y false).filter (fun p => snap p == State.CHICKEN) →
      isValidCell (mid.x + (mid.x - x)) (mid.y + (mid.y - y)) = true →
      snap ⟨mid.x + (mid.x - x), mid.y + (mid.y - y)⟩ = State.EMPTY →
      getFoxJumpsInternalF f (fun q => if q = mid then State.EMPTY else snap q)
          (mid.x + (mid.x - x)) (mid.y + (mid.y - y)) (mid :: cap) fr ≠ [] →
      (∀ o ∈ getFoxJumpsInternalF f (fun q => if q = mid then State.EMPTY else snap q)
            (mid.x + (mid.x - x)) (mid.y + (mid.y - y)) (mid :: cap) fr,
          o ∈ getFoxJumpsInternalF (f + 1) snap x y cap fr) ∧
        (⟨mid :: cap, fr, ⟨mid.x + (mid.x - x), mid.y + (mid.y - y)⟩⟩ : MatrixJumpOption)
          ∉ getFoxJumpsInternalF (f + 1) snap x y cap fr) := by
  constructor
  · intro b pt cc hcc hv he
    obtain ⟨i, hi⟩ := List.getElem?_of_mem hcc
    have hilen : i < (jumpStartPoints b.state pt).length := (List.getElem?_eq_some.mp hi).1
    have hlen8 : (jumpStartPoints b.state pt).length ≤ 8 := jumpStartPoints_length_le _ _
    have hifuel : i < jumpFuel := by
      have : jumpFuel = 10000 := rfl
      omega
    exact ⟨i, hi,
      jumpEngine_processes i jumpFuel b.state pt [] none (jumpStartPoints b.state pt) cc
        hi hifuel hv he⟩
  · intro f snap x y cap fr mid hmid hval hemp hne
    exact getFoxJumpsInternal_no_prefix f snap x y cap fr mid hmid hval hemp hne

theorem legalJumps_continuable_plus_terminal_witness :
    (∃ i : Nat, (jumpStartPoints b2.state ⟨3, 2⟩)[i]? = some ⟨3, 3⟩ ∧
      (⟨(jumpEngine (jumpFuel - i - 1) (setCell b2.state ⟨3, 3⟩ State.EMPTY)
            ⟨3, 4⟩ [⟨3, 3⟩] (some ⟨3, 2⟩)
            (jumpStartPoints (setCell b2.state ⟨3, 3⟩ State.EMPTY) ⟨3, 4⟩)).isEmpty,
          [⟨3, 3⟩], ⟨3, 2⟩, ⟨3, 4⟩⟩ : JumpOption)
        ∈ b2.getJumps ⟨3, 2⟩ ∧
      ∀ o ∈ jumpEngine (jumpFuel - i - 1) (setCell b2.state ⟨3, 3⟩ State.EMPTY)
          ⟨3, 4⟩ [⟨3, 3⟩] (some ⟨3, 2⟩)
          (jumpStartPoints (setCell b2.state ⟨3, 3⟩ State.EMPTY) ⟨3, 4⟩),
        o ∈ b2.getJumps ⟨3, 2⟩) ∧
    (∀ o ∈ getFoxJumpsInternalF 33
          (fun q => if q = (⟨3, 3⟩ : Point) then State.EMPTY else createSnapshot b2 q)
          3 4 [⟨3, 3⟩] ⟨3, 2⟩,
        o ∈ getFoxJumpsInternalF 34 (createSnapshot b2) 3 2 [] ⟨3, 2⟩) ∧
      (⟨[⟨3, 3⟩], ⟨3, 2⟩, ⟨3, 4⟩⟩ : MatrixJumpOption)
        ∉ getFoxJumpsInternalF 34 (createSnapshot b2) 3 2 [] ⟨3, 2⟩ :=
  ⟨(legalJumps_continuable_plus_terminal).1 b2 ⟨3, 2⟩ ⟨3, 3⟩ (by decide) (by decide)
      (by decide),
   (legalJumps_continuable_plus_terminal).2 33 (createSnapshot b2) 3 2 [] ⟨3, 2⟩ ⟨3, 3⟩
      (by decide) (by decide) (by decide) (by decide)⟩

/-- C3 (code evidence): in a three-capture chain the Terminal option emitted
by `Cell.getJumpsCells` carries only the LAST TWO captured cells — the first
captured chicken (3,3) is missing from the list, and applying the option via
`jumpTo` leaves that chicken on the board. The search engine's
`getFoxJumpsInternal` keeps the full three-cell capture list for the same
position, matching the documented intent. -/
theorem jump_chain_capture_list_truncated :
    (⟨true, [⟨1, 3⟩, ⟨2, 4⟩], ⟨3, 2⟩, ⟨1, 2⟩⟩ : JumpOption) ∈ b3.getJumps ⟨3, 2⟩ ∧
    ((⟨3, 3⟩ : Point) ∉ ([⟨1, 3⟩, ⟨2, 4⟩] : List Point)) ∧
    b3.state ⟨3, 3⟩ = State.CHICKEN ∧
    (b3.jumpTo (some ⟨3, 2⟩) ⟨true, [⟨1, 3⟩, ⟨2, 4⟩], ⟨3, 2⟩, ⟨1, 2⟩⟩).state ⟨3, 3⟩
      = State.CHICKEN ∧
    (getMovesForFox (createSnapshot b3) 3 2).2 =
      [⟨[⟨1, 3⟩, ⟨2, 4⟩, ⟨3, 3⟩], ⟨3, 2⟩, ⟨1, 2⟩⟩] := by decide

/-- Pointwise effect of removing a list of cells: every cell either keeps its
state or has been emptied. -/
theorem foldl_setCell_empty_cases (ps : List Point) (st : Point → State) (q : Point) :
    (ps.foldl (fun acc p => setCell acc p State.EMPTY) st) q = st q ∨
    (ps.foldl (fun acc p => setCell acc p State.EMPTY) st) q = State.EMPTY := by
  induction ps generalizing st with
  | nil => exact Or.inl rfl
  | cons p t ih =>
      simp only [List.foldl_cons]
      rcases ih (setCell st p State.EMPTY) with h | h
      · by_cases hc : q = p ∧ validCell p = true
        · exact Or.inr (by rw [h]; simp [setCell, hc])
        · exact Or.inl (by rw [h]; simp [setCell, hc])
      · exact Or.inr h

/-- One `attemptMove` call never increases the piece count, provided any
selected piece names an on-board cell that holds a piece. -/
theorem countPieces_step_le (b : Board) (r : Request)
    (h : ∀ s, r.sel = some s → s ∈ boardPoints ∧ b.state s ≠ State.EMPTY) :
    countPieces (applyReq b r) ≤ countPieces b := by
  unfold applyReq
  cases hvm : (r.mv.find? (fun p => p.x == r.toP.x && p.y == r.toP.y)).isSome with
  | true =>
      cases halj : r.alj.isEmpty with
      | true =>
          rw [attemptMove_eq_moved _ _ _ _ _ _ hvm halj]
          cases hsel : r.sel with
          | none => simp [Board.moveTo]
          | some s =>
              obtain ⟨hmem, hne⟩ := h s hsel
              have hv : validCell s = true := boardPoints_valid s hmem
              simp only [countPieces, moveTo_some_state]
              have h1 :
                  boardPoints.countP
                    (fun p => !((setCell b.state s State.EMPTY) p == State.EMPTY))
                    < boardPoints.countP (fun p => !(b.state p == State.EMPTY)) := by
                apply countP_lt_of_imp boardPoints boardPoints_nodup _ _ s hmem
                · intro p hp hf
                  by_cases hc : p = s ∧ validCell s = true
                  · exfalso
                    simp [setCell, hc] at hf
                  · simpa [setCell, hc] using hf
                · simp [setCell, hv]
                · cases hbs : b.state s <;> simp_all
              have h2 :
                  boardPoints.countP
                    (fun p => !((setCell (setCell b.state s State.EMPTY) r.toP
                      (if b.playersTurn == Player.CHICKEN then State.CHICKEN else State.FOX)) p
                        == State.EMPTY))
                    ≤ boardPoints.countP
                        (fun p => !((setCell b.state s State.EMPTY) p == State.EMPTY)) + 1 := by
                apply countP_le_succ_of_eq_off boardPoints boardPoints_nodup _ _ r.toP
                intro p hp hpe
                simp [setCell, hpe]
              omega
      | false =>
          rw [attemptMove_eq_punishNotJumping _ _ _ _ _ _ hvm halj]
          cases halj2 : r.alj with
          | nil => simp [halj2] at halj
          | cons j rest =>
              simp only [halj2, Board.punishForNotJumping, countPieces, punish_state]
              apply countP_le_of_imp
              intro p hp hf
              by_cases hc : p = j.fromP ∧ validCell j.fromP = true
              · exfalso
                simp [setCell, hc] at hf
              · simpa [setCell, hc] using hf
  | false =>
      cases hj : r.aj.find? (fun o2 => o2.endP.x == r.toP.x && o2.endP.y == r.toP.y) with
      | none =>
          rw [attemptMove_eq_ignored _ _ _ _ _ _ hvm hj]
      | some o =>
          cases hg : o.good with
          | true =>
              rw [attemptMove_eq_jumped _ _ _ _ _ _ o hvm hj hg]
              cases hsel : r.sel with
              | none => simp [Board.jumpTo]
              | some s =>
                  obtain ⟨hmem, hne⟩ := h s hsel
                  have hv : validCell s = true := boardPoints_valid s hmem
                  simp only [countPieces, jumpTo_some_state]
                  have h1 :
                      boardPoints.countP
                        (fun p => !((setCell
                          (o.toBeRemovedChickens.foldl (fun acc q => setCell acc q State.EMPTY)
                            b.state) s State.EMPTY) p == State.EMPTY))
                        < boardPoints.countP (fun p => !(b.state p == State.EMPTY)) := by
                    apply countP_lt_of_imp boardPoints boardPoints_nodup _ _ s hmem
                    · intro p hp hf
                      by_cases hc : p = s ∧ validCell s = true
                      · exfalso
                        simp [setCell, hc] at hf
                      · rw [show (setCell
                            (o.toBeRemovedChickens.foldl (fun acc q => setCell acc q State.EMPTY)
                              b.state) s State.EMPTY) p =
                            (o.toBeRemovedChickens.foldl (fun acc q => setCell acc q State.EMPTY)
                              b.state) p from by simp [setCell, hc]] at hf
                        rcases foldl_setCell_empty_cases o.toBeRemovedChickens b.state p with hcp | hcp
                        · rwa [hcp] at hf
                        · rw [hcp] at hf
                          simp at hf
                    · simp [setCell, hv]
                    · cases hbs : b.state s <;> simp_all
                  have h2 :
                      boardPoints.countP
                        (fun p => !((setCell (setCell
                          (o.toBeRemovedChickens.foldl (fun acc q => setCell acc q State.EMPTY)
                            b.state) s State.EMPTY) o.endP State.FOX) p == State.EMPTY))
                        ≤ boardPoints.countP
                            (fun p => !((setCell
                              (o.toBeRemovedChickens.foldl (fun acc q => setCell acc q State.EMPTY)
                                b.state) s State.EMPTY) p == State.EMPTY)) + 1 := by
                    apply countP_le_succ_of_eq_off boardPoints boardPoints_nodup _ _ o.endP
                    intro p hp hpe
                    simp [setCell, hpe]
                  omega
          | false =>
              rw [attemptMove_eq_punishContinuable _ _ _ _ _ _ o hvm hj hg]
              cases hsel : r.sel with
              | none => simp [Board.punishForJump]
              | some s =>
                  simp only [Board.punishForJump, countPieces, punish_state]
                  apply countP_le_of_imp
                  intro p hp hf
                  by_cases hc : p = s ∧ validCell s = true
                  · exfalso
                    simp [setCell, hc] at hf
                  · simpa [setCell, hc] using hf

/-- C8: the total number of pieces on the board (foxes plus chickens) is
monotonically non-increasing: no single `attemptMove` call and no sequence of
such calls ever increases it, whenever each call's selected piece (if any)
names an on-board cell holding a piece at the moment it is applied. -/
theorem piece_count_monotone :
    (∀ (b : Board) (r : Request),
      (∀ s, r.sel = some s → s ∈ boardPoints ∧ b.state s ≠ State.EMPTY) →
      countPieces (applyReq b r) ≤ countPieces b) ∧
    (∀ (b : Board) (rs : List Request),
      selOk b rs → countPieces (runRequests b rs) ≤ countPieces b) := by
  refine ⟨countPieces_step_le, ?_⟩
  intro b rs
  induction rs generalizing b with
  | nil => intro _; exact Nat.le.refl
  | cons r t ih =>
      intro hok
      obtain ⟨h1, h2⟩ := hok
      exact Nat.le_trans (ih (applyReq b r) h2) (countPieces_step_le b r h1)

theorem piece_count_monotone_witness :
    countPieces (applyReq initialBoard ⟨some ⟨0, 3⟩, ⟨0, 2⟩, [⟨0, 2⟩], [], []⟩)
      ≤ countPieces initialBoard ∧
    selOk initialBoard [⟨some ⟨0, 3⟩, ⟨0, 2⟩, [⟨0, 2⟩], [], []⟩] ∧
    countPieces (runRequests initialBoard [⟨some ⟨0, 3⟩, ⟨0, 2⟩, [⟨0, 2⟩], [], []⟩])
      ≤ countPieces initialBoard := by
  have hsel : ∀ s, (⟨some ⟨0, 3⟩, ⟨0, 2⟩, [⟨0, 2⟩], [], []⟩ : Request).sel = some s →
      s ∈ boardPoints ∧ initialBoard.state s ≠ State.EMPTY := by
    intro s hs
    cases Option.some.inj hs
    exact ⟨by decide, by decide⟩
  have hok : selOk initialBoard [⟨some ⟨0, 3⟩, ⟨0, 2⟩, [⟨0, 2⟩], [], []⟩] := ⟨hsel, trivial⟩
  exact ⟨piece_count_monotone.1 initialBoard _ hsel, hok,
    piece_count_monotone.2 initialBoard _ hok⟩

/-- C4: at a fox ply the candidate set is exactly the Terminal jump options
whenever any exists: (1) at the root, when the jump list is nonempty the
chosen move is one of the jump options (step moves are never considered) and
its searched value is minimal among all jump options (the fox minimizes the
chicken-perspective score); (2) when the jump list is a singleton the root
returns exactly that jump's origin and final landing cell; (3) a fox ply
with no candidates at all is evaluated as a leaf; (4) at every interior fox
ply with a nonempty jump list the minimax value is computed from the jump
children alone. -/
theorem fox_search_mandatory_jumps (b : Board) (depth : Nat) :
    ((allFoxMoves (createSnapshot b)).2 ≠ [] →
      ∃ j ∈ (allFoxMoves (createSnapshot b)).2,
        calculateNextMove b depth Player.FOX = ⟨j.fromP, j.endP⟩ ∧
        ∀ j' ∈ (allFoxMoves (createSnapshot b)).2,
          XV.le
            (minimax (depth - 1) (applyFoxJump (createSnapshot b) j) Player.CHICKEN XV.ninf XV.pinf)
            (minimax (depth - 1) (applyFoxJump (createSnapshot b) j') Player.CHICKEN XV.ninf XV.pinf)
            = true) ∧
    (∀ j, (allFoxMoves (createSnapshot b)).2 = [j] →
      calculateNextMove b depth Player.FOX = ⟨j.fromP, j.endP⟩) ∧
    (∀ (snap : Snap) (d : Nat) (a bb : XV),
      (allFoxMoves snap).2 = [] → (allFoxMoves snap).1 = [] →
      minimax (d + 1) snap Player.FOX a bb = XV.fin (scoreForChickens snap)) ∧
    (∀ (snap : Snap) (d : Nat) (a bb : XV),
      (allFoxMoves snap).2 ≠ [] →
      minimax (d + 1) snap Player.FOX a bb =
        minLoop (fun c β => minimax d c Player.CHICKEN a β) a
          ((allFoxMoves snap).2.map (applyFoxJump snap)) XV.pinf bb) := by
  refine ⟨?_, ?_, ?_, ?_⟩
  · intro hne
    have hempty : (allFoxMoves (createSnapshot b)).2.isEmpty = false := by
      cases h : (allFoxMoves (createSnapshot b)).2 with
      | nil => exact absurd h hne
      | cons x xs => rfl
    obtain ⟨j, hj, hrl, hall⟩ := rootLoop_lt_pick
      (fun j => minimax (depth - 1) (applyFoxJump (createSnapshot b) j) Player.CHICKEN XV.ninf XV.pinf)
      (fun j => (⟨j.fromP, j.endP⟩ : MoveFT))
      (allFoxMoves (createSnapshot b)).2 hne
    refine ⟨j, hj, ?_, hall⟩
    simp only [calculateNextMove, hempty, Bool.false_eq_true, if_false, hrl]
  · intro j hj
    simp only [calculateNextMove, hj, List.isEmpty_cons, Bool.false_eq_true, if_false,
      rootLoop]
  · intro snap d a bb h2 h1
    simp only [minimax, h2, h1, List.isEmpty_nil, if_true, List.map_nil]
  · intro snap d a bb hne
    have hempty : (allFoxMoves snap).2.isEmpty = false := by
      cases h : (allFoxMoves snap).2 with
      | nil => exact absurd h hne
      | cons x xs => rfl
    have hmap : ((allFoxMoves snap).2.map (applyFoxJump snap)).isEmpty = false := by
      cases h : (allFoxMoves snap).2 with
      | nil => exact absurd h hne
      | cons x xs => simp [h]
    simp only [minimax, hempty, Bool.false_eq_true, if_false, hmap]

theorem fox_search_mandatory_jumps_witness :
    (allFoxMoves (createSnapshot b4)).2 =
      [⟨[⟨3, 3⟩], ⟨3, 2⟩, ⟨3, 4⟩⟩] ∧
    calculateNextMove b4 1 Player.FOX = ⟨⟨3, 2⟩, ⟨3, 4⟩⟩ := by
  have h : (allFoxMoves (createSnapshot b4)).2 = [⟨[⟨3, 3⟩], ⟨3, 2⟩, ⟨3, 4⟩⟩] := by decide
  exact ⟨h, (fox_search_mandatory_jumps b4 1).2.1 _ h⟩

/-- C6 (spec-modelled): when choosing a move for the chicken side, root
candidates whose resulting snapshot fingerprint is among the caller-supplied
recent fingerprints are excluded before selection; if some candidate
survives, the chosen move is a surviving candidate (so its fingerprint is not
recent) of maximal searched value; if the exclusion would eliminate every
candidate it is dropped and the result equals the history-free engine's
choice; the fox side is never filtered. -/
theorem chicken_history_filtering (b : Board) (depth : Nat) (recent : List (List State)) :
    ((allChickenMoves (createSnapshot b)).filter
        (fun m => decide (fingerprint (applyStepMove (createSnapshot b) m) ∉ recent)) ≠ [] →
      ∃ m ∈ (allChickenMoves (createSnapshot b)).filter
          (fun m => decide (fingerprint (applyStepMove (createSnapshot b) m) ∉ recent)),
        calculateNextMoveWithHistory b depth Player.CHICKEN recent = m ∧
        fingerprint (applyStepMove (createSnapshot b) m) ∉ recent ∧
        ∀ m' ∈ (allChickenMoves (createSnapshot b)).filter
            (fun m => decide (fingerprint (applyStepMove (createSnapshot b) m) ∉ recent)),
          XV.le
            (minimax (depth - 1) (applyStepMove (createSnapshot b) m') Player.FOX XV.ninf XV.pinf)
            (minimax (depth - 1) (applyStepMove (createSnapshot b) m) Player.FOX XV.ninf XV.pinf)
            = true) ∧
    ((allChickenMoves (createSnapshot b)).filter
        (fun m => decide (fingerprint (applyStepMove (createSnapshot b) m) ∉ recent)) = [] →
      calculateNextMoveWithHistory b depth Player.CHICKEN recent
        = calculateNextMove b depth Player.CHICKEN) ∧
    (calculateNextMoveWithHistory b depth Player.FOX recent
      = calculateNextMove b depth Player.FOX) := by
  refine ⟨?_, ?_, rfl⟩
  · intro hne
    have hempty : ((allChickenMoves (createSnapshot b)).filter
        (fun m => decide (fingerprint (applyStepMove (createSnapshot b) m) ∉ recent))).isEmpty
        = false := by
      cases h : (allChickenMoves (createSnapshot b)).filter
          (fun m => decide (fingerprint (applyStepMove (createSnapshot b) m) ∉ recent)) with
      | nil => exact absurd h hne
      | cons x xs => rfl
    obtain ⟨m, hm, hrl, hall⟩ := rootLoop_gt_pick
      (fun m => minimax (depth - 1) (applyStepMove (createSnapshot b) m) Player.FOX XV.ninf XV.pinf)
      (fun m => m)
      ((allChickenMoves (createSnapshot b)).filter
        (fun m => decide (fingerprint (applyStepMove (createSnapshot b) m) ∉ recent))) hne
    refine ⟨m, hm, ?_, ?_, hall⟩
    · simp only [calculateNextMoveWithHistory, hempty, Bool.false_eq_true, if_false, hrl]
    · exact of_decide_eq_true (List.mem_filter.mp hm).2
  · intro hkeep
    simp only [calculateNextMoveWithHistory, calculateNextMove, hkeep, List.isEmpty_nil,
      if_true]

theorem chicken_history_filtering_witness :
    ∃ m ∈ (allChickenMoves (createSnapshot initialBoard)).filter
        (fun m => decide
          (fingerprint (applyStepMove (createSnapshot initialBoard) m) ∉ ([] : List (List State)))),
      calculateNextMoveWithHistory initialBoard 1 Player.CHICKEN [] = m ∧
      fingerprint (applyStepMove (createSnapshot initialBoard) m) ∉ ([] : List (List State)) ∧
      ∀ m' ∈ (allChickenMoves (createSnapshot initialBoard)).filter
          (fun m => decide
            (fingerprint (applyStepMove (createSnapshot initialBoard) m) ∉ ([] : List (List State)))),
        XV.le
          (minimax 0 (applyStepMove (createSnapshot initialBoard) m') Player.FOX XV.ninf XV.pinf)
          (minimax 0 (applyStepMove (createSnapshot initialBoard) m) Player.FOX XV.ninf XV.pinf)
          = true :=
  (chicken_history_filtering initialBoard 1 []).1 (by decide)

theorem allMoves_allJumps_characterization_witness :
    (⟨2, 2⟩ : Point) ∈ bW.getAllMoves ∧ bW.playersTurn = Player.FOX ∧
    (∃ p ∈ boardPoints, bW.state p = State.FOX ∧ (⟨2, 2⟩ : Point) ∈ bW.getMoves p) :=
  ⟨((allMoves_allJumps_characterization bW).2.1 ⟨2, 2⟩).mpr
      ⟨by decide, ⟨3, 2⟩, by decide, by decide, by decide⟩,
   by decide,
   ((allMoves_allJumps_characterization bW).2.1 ⟨2, 2⟩).mp (by decide) |>.2⟩

end HF
